/-
Verification of the core queueing components of the nano-node repository:
the generic fair queue (nano/node/fair_queue.hpp), the block processor
batch loop (nano::block_processor::process_batch), the confirming set
(nano/node/confirming_set.cpp), active elections insertion
(nano/node/active_elections.cpp), the scheduler bucket
(nano/node/scheduler/bucket.cpp) and the TCP channel send queue
(nano/node/transport/tcp_channel.cpp).

Each C++ component is embedded shallowly: sources and hashes are
natural numbers, std::map is a key-sorted association list, std::set is
a sorted duplicate-free list, std::deque is a plain list, and machine
time is abstracted by explicit boolean deadline schedules.
-/
import Mathlib

namespace NanoNode

/-! ## Fair queue (nano/node/fair_queue.hpp)

`fair_queue<Request, Sources...>` keeps one bounded FIFO per source in a
`std::map`.  Sources are modelled as naturals (`std::map` iteration order
is the order on keys), requests by an arbitrary type `R`.  The
`max_size_query` / `priority_query` callbacks are modelled as fixed
functions, exactly as they are installed once at construction by the
block processor. -/

/-- Per-source FIFO of the fair queue (`fair_queue::entry`). -/
structure FQEntry (R : Type) where
  requests : List R
  priority : Nat
  max_size : Nat
deriving Repr, DecidableEq

/-- Models `entry::push`: append when below `max_size` (returns `true` = Added),
otherwise drop (returns `false` = Dropped). -/
def FQEntry.push {R : Type} (e : FQEntry R) (r : R) : FQEntry R × Bool :=
  if e.requests.length < e.max_size then
    ({ e with requests := e.requests ++ [r] }, true)
  else
    (e, false)

/-- Association-list lookup, mirroring `std::map::find` on a key-sorted list. -/
def lookupQ {R : Type} : List (Nat × FQEntry R) → Nat → Option (FQEntry R)
  | [], _ => none
  | (k, e) :: rest, s => if k = s then some e else lookupQ rest s

/-- Replace the entry stored under an existing key. -/
def setQ {R : Type} : List (Nat × FQEntry R) → Nat → FQEntry R → List (Nat × FQEntry R)
  | [], _, _ => []
  | (k, e) :: rest, s, e' => if k = s then (k, e') :: rest else (k, e) :: setQ rest s e'

/-- Insert a fresh key in sorted position (`std::map::emplace` for an
absent key). -/
def insertQ {R : Type} : List (Nat × FQEntry R) → Nat → FQEntry R → List (Nat × FQEntry R)
  | [], s, e => [(s, e)]
  | (k, e0) :: rest, s, e => if s < k then (s, e) :: (k, e0) :: rest else (k, e0) :: insertQ rest s e

/-- The fair queue state: the per-source queues (key-sorted), the
round-robin iterator (`none` = `queues.end()`) and the served-items
counter, plus the two user-supplied query callbacks. -/
structure FairQueue (R : Type) where
  max_size_query : Nat → Nat
  priority_query : Nat → Nat
  queues : List (Nat × FQEntry R)
  cursor : Option Nat
  counter : Nat

/-- Models `fair_queue::size (source)`: `0` when the source has no queue. -/
def FairQueue.size {R : Type} (fq : FairQueue R) (s : Nat) : Nat :=
  (lookupQ fq.queues s).elim 0 (fun e => e.requests.length)

/-- Models `fair_queue::max_size (source)`: `0` when the source has no queue. -/
def FairQueue.maxSizeOf {R : Type} (fq : FairQueue R) (s : Nat) : Nat :=
  (lookupQ fq.queues s).elim 0 (fun e => e.max_size)

/-- Models `fair_queue::priority (source)`: `0` when the source has no queue. -/
def FairQueue.priorityOf {R : Type} (fq : FairQueue R) (s : Nat) : Nat :=
  (lookupQ fq.queues s).elim 0 (fun e => e.priority)

/-- Models `fair_queue::empty`: all per-source FIFOs are empty. -/
def FairQueue.isEmpty {R : Type} (fq : FairQueue R) : Bool :=
  fq.queues.all (fun p => p.2.requests.isEmpty)

/-- Models `fair_queue::push`: create the per-source FIFO on first use (querying
`max_size_query` and `priority_query`), then delegate to `entry::push`.
Returns `true` when added, `false` when dropped. -/
def FairQueue.push {R : Type} (fq : FairQueue R) (r : R) (s : Nat) : FairQueue R × Bool :=
  match lookupQ fq.queues s with
  | some e =>
      let p := e.push r
      ({ fq with queues := setQ fq.queues s p.1 }, p.2)
  | none =>
      let e0 : FQEntry R :=
        { requests := [], priority := fq.priority_query s, max_size := fq.max_size_query s }
      let p := e0.push r
      ({ fq with queues := insertQ fq.queues s p.1 }, p.2)

/-- The `should_seek` test inside `fair_queue::next`: seek when the
iterator is at end, the current FIFO is empty, or `counter` has reached
the current queue's priority. -/
def shouldSeek {R : Type} (fq : FairQueue R) : Bool :=
  match fq.cursor with
  | none => true
  | some k =>
      match lookupQ fq.queues k with
      | none => true
      | some e => e.requests.isEmpty || decide (e.priority ≤ fq.counter)

/-- The circular visiting order of `seek_next` starting just after the
cursor: first all keys greater than the cursor in map order, then
(wrapping to `begin`) all keys up to and including the cursor. -/
def rotationFrom {R : Type} (qs : List (Nat × FQEntry R)) : Option Nat → List (Nat × FQEntry R)
  | none => qs
  | some k => qs.filter (fun p => decide (k < p.1)) ++ qs.filter (fun p => decide (p.1 ≤ k))

/-- The queue `seek_next` stops at: the first non-empty FIFO in circular
order after the current iterator. -/
def seekTarget {R : Type} (fq : FairQueue R) : Option Nat :=
  ((rotationFrom fq.queues fq.cursor).find? (fun p => !p.2.requests.isEmpty)).map Prod.fst

/-- The tail of `fair_queue::next` after the seek decision: pop the front
of the FIFO under the iterator and bump `counter`.  The `release_assert`
failure paths (no queue to serve) are modelled as `none`. -/
def nextFrom {R : Type} (fq : FairQueue R) : Option ((R × Nat) × FairQueue R) :=
  fq.cursor.bind (fun k =>
    (lookupQ fq.queues k).bind (fun e =>
      match e.requests with
      | [] => none
      | r :: rest =>
          some ((r, k),
            { fq with
              queues := setQ fq.queues k { e with requests := rest },
              counter := fq.counter + 1 })))

/-- Models `fair_queue::next`: seek if needed (resetting `counter` and moving the
iterator to the next non-empty queue in circular order), then pop. -/
def FairQueue.next {R : Type} (fq : FairQueue R) : Option ((R × Nat) × FairQueue R) :=
  nextFrom (if shouldSeek fq then { fq with cursor := seekTarget fq, counter := 0 } else fq)

/-- Well-formedness of one stored entry: its cached `max_size` and
`priority` agree with the queries and its FIFO respects the capacity. -/
def entryWF {R : Type} (maxQ prioQ : Nat → Nat) (k : Nat) (e : FQEntry R) : Prop :=
  e.max_size = maxQ k ∧ e.priority = prioQ k ∧ e.requests.length ≤ e.max_size

instance {R : Type} (maxQ prioQ : Nat → Nat) (k : Nat) (e : FQEntry R) :
    Decidable (entryWF maxQ prioQ k e) := by
  unfold entryWF
  infer_instance

/-- The iterator, when not at end, refers to a live element of the map. -/
def cursorOK {R : Type} (fq : FairQueue R) : Bool :=
  match fq.cursor with
  | none => true
  | some k => (lookupQ fq.queues k).isSome

/-- Fair-queue invariant: keys strictly sorted (as in `std::map`), every
entry well formed, iterator valid. -/
def FQInv {R : Type} (fq : FairQueue R) : Prop :=
  fq.queues.Pairwise (fun a b => a.1 < b.1)
    ∧ (∀ p ∈ fq.queues, entryWF fq.max_size_query fq.priority_query p.1 p.2)
    ∧ cursorOK fq = true

/-- One mutating operation on the fair queue, as invoked by its users:
`push`, `next` (when it succeeds), `clear`, the `cleanup` half of
`periodic_update` (erases queues whose source is no longer alive,
invalidating the iterator) and its `update` half (re-reads the queries). -/
inductive FQStep {R : Type} : FairQueue R → FairQueue R → Prop where
  | push (fq : FairQueue R) (r : R) (s : Nat) : FQStep fq (fq.push r s).1
  | next (fq fq' : FairQueue R) (v : R × Nat) : fq.next = some (v, fq') → FQStep fq fq'
  | clear (fq : FairQueue R) : FQStep fq { fq with queues := [], cursor := none }
  | cleanup (fq : FairQueue R) (alive : Nat → Bool) :
      FQStep fq { fq with cursor := none, queues := fq.queues.filter (fun p => alive p.1) }
  | update (fq : FairQueue R) :
      FQStep fq { fq with
        queues := fq.queues.map (fun p =>
          (p.1, { p.2 with max_size := fq.max_size_query p.1, priority := fq.priority_query p.1 })) }

/-- States reachable from a freshly constructed fair queue. -/
inductive FQReach {R : Type} : FairQueue R → Prop where
  | init (maxQ prioQ : Nat → Nat) : FQReach ⟨maxQ, prioQ, [], none, 0⟩
  | step (fq fq' : FairQueue R) : FQReach fq → FQStep fq fq' → FQReach fq'

/-! Trace semantics for the FIFO-ordering claim: a producer/consumer
interleaving of `push` and `next` calls, recording accepted pushes and
popped items in order. -/

/-- One external operation on the fair queue. -/
inductive FQOp (R : Type) where
  | push (r : R) (s : Nat)
  | next
deriving Repr, DecidableEq

/-- A fair queue together with its observable history. -/
structure FQTrace (R : Type) where
  state : FairQueue R
  accepted : List (R × Nat)
  popped : List (R × Nat)

/-- Run one operation, extending the history. `next` on an empty queue is
undefined behaviour in the source (debug-asserted); it is modelled as a
no-op. -/
def runOp {R : Type} (t : FQTrace R) : FQOp R → FQTrace R
  | .push r s =>
      { t with
        state := (t.state.push r s).1
        accepted := if (t.state.push r s).2 then t.accepted ++ [(r, s)] else t.accepted }
  | .next =>
      match t.state.next with
      | some (v, fq') => { t with state := fq', popped := t.popped ++ [v] }
      | none => t

/-- Run a list of operations from a trace. -/
def runOps {R : Type} (t : FQTrace R) : List (FQOp R) → FQTrace R
  | [] => t
  | op :: ops => runOps (runOp t op) ops

/-- Fresh trace over a freshly constructed queue. -/
def initTrace {R : Type} (maxQ prioQ : Nat → Nat) : FQTrace R :=
  { state := ⟨maxQ, prioQ, [], none, 0⟩, accepted := [], popped := [] }

/-- The items of the history belonging to one source, in order. -/
def forSource {R : Type} (s : Nat) (l : List (R × Nat)) : List R :=
  (l.filter (fun p => decide (p.2 = s))).map Prod.fst

/-- The pending FIFO contents of one source. -/
def requestsOf {R : Type} (fq : FairQueue R) (s : Nat) : List R :=
  (lookupQ fq.queues s).elim [] (fun e => e.requests)

/-! ## Block processor batch loop (`nano::block_processor::process_batch`)

The batch loop of `process_batch` runs

  `while (!queue.empty () && (!deadline_reached () || !processor_batch_reached ()) && !store_batch_reached ())`

where `processor_batch_reached` is `processed >= block_processor_batch_size`,
`store_batch_reached` is `processed >= store.max_block_write_batch_num ()`
and `deadline_reached` compares the batch timer against
`block_processor_batch_max_time`.  Each iteration processes exactly one
block, so the timer checks are indexed by the number of blocks already
processed: `deadline n` tells whether the deadline had elapsed when the
loop guard was evaluated for the `n`-th time. -/

/-- The blocks processed by one batch, in order: the loop body pops one
item per iteration while the guard holds. -/
def processLoop {A : Type} (deadline : Nat → Bool) (batchSize storeMax : Nat) :
    List A → Nat → List A
  | [], _ => []
  | x :: rest, n =>
      if (!(deadline n) || decide (n < batchSize)) && decide (n < storeMax) then
        x :: processLoop deadline batchSize storeMax rest (n + 1)
      else
        []

/-- The batch starts with zero blocks processed (`process_batch`). -/
def processBatch {A : Type} (queue : List A) (deadline : Nat → Bool)
    (batchSize storeMax : Nat) : List A :=
  processLoop deadline batchSize storeMax queue 0

/-! ## Confirming set (nano/node/confirming_set.cpp)

Hashes are naturals.  The two buffers `set` and `processing` are kept as
lists of distinct hashes (`std::unordered_set`). -/

/-- State of `nano::confirming_set`: the front buffer `set` and the back
buffer `processing`. -/
structure ConfirmingSet where
  pending : List Nat
  processing : List Nat
deriving Repr, DecidableEq

/-- Models `confirming_set::add`: `set.insert (hash)`; `added` is true iff the
hash was not already in the front buffer. -/
def ConfirmingSet.add (cs : ConfirmingSet) (h : Nat) : ConfirmingSet × Bool :=
  if h ∈ cs.pending then (cs, false)
  else ({ cs with pending := h :: cs.pending }, true)

/-- Models `confirming_set::exists`: the hash is in either buffer. -/
def ConfirmingSet.containsHash (cs : ConfirmingSet) (h : Nat) : Bool :=
  decide (h ∈ cs.pending) || decide (h ∈ cs.processing)

/-- Result of one worker batch: final ledger state, the `cemented`
notification list and the `already` notification list. -/
structure BatchResult where
  ledger : List Nat
  cemented : List Nat
  already : List Nat
deriving Repr, DecidableEq

/-- Modelled from the spec: `ledger.confirm (tx, hash) → list[block]` is
not part of src/ (the ledger is an external collaborator).  It is taken
as a parameter `cf` mapping the current confirmed-set to the list of
blocks whose confirmation height the call advances; its spec contract
(returned blocks were not yet confirmed, and become confirmed) is a
hypothesis of the theorems below.  `runBatch` is the loop of
`confirming_set::run_batch` over the back buffer: each hash is confirmed,
non-empty results are appended to `cemented`, empty results are recorded
in `already`. -/
def runBatch (cf : List Nat → Nat → List Nat) (ledger : List Nat) :
    List Nat → BatchResult
  | [] => ⟨ledger, [], []⟩
  | h :: rest =>
      let added := cf ledger h
      let r := runBatch cf (ledger ++ added) rest
      if added.isEmpty then ⟨r.ledger, r.cemented, h :: r.already⟩
      else ⟨r.ledger, added ++ r.cemented, r.already⟩

/-! ## Active elections (nano/node/active_elections.cpp)

Blocks carry a hash and a qualified root `(root, previous)`; elections
are identified by the id under which they were created (C++ returns
`shared_ptr` identity).  The state keeps exactly what
`active_elections::insert` touches: the `stopped` flag, the election
table keyed by qualified root, the `recently_confirmed` root cache and
the vote-router `hash → election` registrations. -/

/-- A block, as far as election insertion is concerned. -/
structure Block where
  hash : Nat
  root : Nat
  previous : Nat
deriving Repr, DecidableEq

/-- Models `block::qualified_root`: the pair `(root, previous)`. -/
def Block.qualifiedRoot (b : Block) : Nat × Nat := (b.root, b.previous)

/-- Polymorphic association-list lookup (`find` in the various keyed
containers). -/
def alookup {K V : Type} [DecidableEq K] : List (K × V) → K → Option V
  | [], _ => none
  | (k, v) :: rest, key => if k = key then some v else alookup rest key

/-- State of `nano::active_elections` relevant to `insert`. -/
structure ActiveElections where
  stopped : Bool
  elections : List ((Nat × Nat) × Nat)
  recentlyConfirmed : List (Nat × Nat)
  voteRouter : List (Nat × Nat)
  nextId : Nat
deriving Repr, DecidableEq

/-- Models `active_elections::insert`: return `{}` when stopped; return the
existing election with `inserted = false` when one exists for the root;
return `{}` when the root is recently confirmed; otherwise create the
election, register it in the vote router under the block hash, and
return it with `inserted = true`.  The result pairs
`(option election, inserted)` with the post-state. -/
def ActiveElections.insert (ae : ActiveElections) (b : Block)
    (behavior bucket priority : Nat) : (Option Nat × Bool) × ActiveElections :=
  if ae.stopped then ((none, false), ae)
  else
    let root := b.qualifiedRoot
    match alookup ae.elections root with
    | some e => ((some e, false), ae)
    | none =>
        if root ∈ ae.recentlyConfirmed then ((none, false), ae)
        else
          ((some ae.nextId, true),
            { ae with
              elections := (root, ae.nextId) :: ae.elections
              voteRouter := (b.hash, ae.nextId) :: ae.voteRouter
              nextId := ae.nextId + 1 })

/-! ## Scheduler bucket (nano/node/scheduler/bucket.cpp)

`block_entry` is ordered by `(time, hash)` lexicographically
(`block_entry::operator<`); the queue is a `std::set`, modelled as a
strictly sorted list. -/

/-- Models `block_entry::operator<`: `time` first, hash as tie-break. -/
def entryLt (a b : Nat × Nat) : Prop :=
  a.1 < b.1 ∨ (a.1 = b.1 ∧ a.2 < b.2)

instance : DecidableRel entryLt := fun a b => by
  unfold entryLt; infer_instance

/-- Models `std::set::insert` on the sorted queue: keep sortedness, ignore an
exact duplicate. -/
def insertEntry (e : Nat × Nat) : List (Nat × Nat) → List (Nat × Nat)
  | [] => [e]
  | x :: rest =>
      if entryLt e x then e :: x :: rest
      else if e = x then x :: rest
      else x :: insertEntry e rest

/-- Models `bucket::push`: insert, then if the queue overflowed `max_blocks`
erase `--queue.end ()` (the greatest, i.e. worst-priority, entry). -/
def bucketPush (maxBlocks : Nat) (e : Nat × Nat) (q : List (Nat × Nat)) : List (Nat × Nat) :=
  let q1 := insertEntry e q
  if maxBlocks < q1.length then q1.dropLast else q1

/-! ## TCP channel send queue (nano/node/transport/tcp_channel.cpp)

Modelled from the spec: the `traffic_type` enumeration and the
`full_size` threshold used by `tcp_channel_queue::full` are not part of
src/ (the .cpp references `full_size`, the .hpp in src declares only
`max_size = 128`).  Per the spec, the absolute per-traffic-type cap at
which `send_buffer` drops is 128 entries, so `fullSize = 128`.
Queued entries are identified by a natural (standing for the buffer and
its completion callback); `invoked` records the callbacks actually
invoked by the sender task (`send_one`). -/

/-- Traffic types (modelled from the spec, §3: `generic`,
`block_broadcast`, `vote_rebroadcast`, `bootstrap`). -/
inductive TrafficType where
  | generic
  | block_broadcast
  | vote_rebroadcast
  | bootstrap
deriving Repr, DecidableEq

/-- Models `tcp_channel_queue::max_size` (tcp_channel.hpp line 44). -/
def channelMaxSize : Nat := 128

/-- Modelled from the spec: the `full_size` drop threshold of
`tcp_channel_queue::full`, equal to the absolute 128-entry cap. -/
def channelFullSize : Nat := 128

/-- State of one TCP channel: the per-traffic-type send queues and the
callbacks invoked so far by the sender task. -/
structure TcpChannel where
  q : TrafficType → List Nat
  invoked : List Nat

/-- Models `tcp_channel_queue::full`. -/
def TcpChannel.fullFor (c : TcpChannel) (t : TrafficType) : Bool :=
  channelFullSize ≤ (c.q t).length

/-- Models `tcp_channel::send_buffer`: if the queue for the traffic type is not
full, push the entry and return `true`; otherwise drop: return `false`,
leaving the state (and in particular `invoked`) untouched. -/
def TcpChannel.sendBuffer (c : TcpChannel) (t : TrafficType) (entry : Nat) :
    TcpChannel × Bool :=
  if c.fullFor t then (c, false)
  else
    ({ c with q := fun u => if u = t then c.q t ++ [entry] else c.q u }, true)

/-- One step of the sender task for one queue: `next` pops the front
entry of the selected queue and `send_one` invokes its callback.  (Which
queue the internal cursor selects is irrelevant to the capacity claim,
so the selected traffic type is a parameter.) -/
def TcpChannel.processOne (c : TcpChannel) (t : TrafficType) : TcpChannel :=
  match c.q t with
  | [] => c
  | e :: rest =>
      { c with q := fun u => if u = t then rest else c.q u, invoked := c.invoked ++ [e] }

/-- Channel states reachable from a fresh channel. -/
inductive ChannelReach : TcpChannel → Prop where
  | init : ChannelReach ⟨fun _ => [], []⟩
  | send (c : TcpChannel) (t : TrafficType) (e : Nat) :
      ChannelReach c → ChannelReach (c.sendBuffer t e).1
  | process (c : TcpChannel) (t : TrafficType) :
      ChannelReach c → ChannelReach (c.processOne t)

/-! ## Concrete evaluation states -/

/-- A fair queue obtained by one accepted push on source `0`
(capacity `2`, priority `1` for every source). -/
def fqW : FairQueue Nat :=
  (FairQueue.push ⟨fun _ => 2, fun _ => 1, [], none, 0⟩ 5 0).1

/-- A two-source fair queue with the iterator on source `0`. -/
def fqC : FairQueue Nat :=
  ⟨fun _ => 4, fun _ => 2, [(0, ⟨[10, 11], 2, 4⟩), (1, ⟨[20], 2, 4⟩)], some 0, 0⟩

/-- Push a list of entries one after the other on a channel. -/
def sendMany (c : TcpChannel) (t : TrafficType) : List Nat → TcpChannel
  | [] => c
  | e :: es => sendMany (c.sendBuffer t e).1 t es

/-- A channel whose `generic` queue has been filled to the drop
threshold. -/
def cFull : TcpChannel :=
  sendMany ⟨fun _ => [], []⟩ .generic (List.range 128)

/-! ## Fair-queue association-list lemmas -/

theorem lookupQ_eq_some_mem {R : Type} {qs : List (Nat × FQEntry R)} {s : Nat} {e : FQEntry R}
    (h : lookupQ qs s = some e) : (s, e) ∈ qs := by
  induction qs with
  | nil => simp [lookupQ] at h
  | cons p rest ih =>
      obtain ⟨k, v⟩ := p
      by_cases hk : k = s
      · subst hk
        rw [lookupQ, if_pos rfl] at h
        simp only [Option.some.injEq] at h
        subst h
        exact List.mem_cons_self _ _
      · rw [lookupQ, if_neg hk] at h
        exact List.mem_cons_of_mem _ (ih h)

theorem lookupQ_isSome_iff {R : Type} {qs : List (Nat × FQEntry R)} {s : Nat} :
    (lookupQ qs s).isSome = true ↔ s ∈ qs.map Prod.fst := by
  induction qs with
  | nil => simp [lookupQ]
  | cons p rest ih =>
      obtain ⟨k, v⟩ := p
      by_cases hk : k = s
      · subst hk
        simp [lookupQ]
      · rw [lookupQ, if_neg hk, ih]
        simp only [List.map_cons, List.mem_cons]
        constructor
        · exact Or.inr
        · rintro (h | h)
          · exact absurd h.symm hk
          · exact h

theorem keys_nodup {R : Type} {qs : List (Nat × FQEntry R)}
    (h : qs.Pairwise (fun a b => a.1 < b.1)) : (qs.map Prod.fst).Nodup := by
  exact List.pairwise_map.mpr (h.imp fun hab => Nat.ne_of_lt hab)

theorem lookupQ_of_mem_nodup {R : Type} {qs : List (Nat × FQEntry R)}
    (hnd : (qs.map Prod.fst).Nodup) {p : Nat × FQEntry R} (hp : p ∈ qs) :
    lookupQ qs p.1 = some p.2 := by
  induction qs with
  | nil => simp at hp
  | cons q rest ih =>
      obtain ⟨k, v⟩ := q
      simp only [List.map_cons, List.nodup_cons] at hnd
      rcases List.mem_cons.mp hp with h | h
      · rw [h]
        rw [lookupQ, if_pos rfl]
      · by_cases hk : k = p.1
        · exact absurd (by rw [hk]; exact List.mem_map_of_mem Prod.fst h) hnd.1
        · rw [lookupQ, if_neg hk]
          exact ih hnd.2 h

theorem setQ_map_fst {R : Type} (qs : List (Nat × FQEntry R)) (s : Nat) (e' : FQEntry R) :
    (setQ qs s e').map Prod.fst = qs.map Prod.fst := by
  induction qs with
  | nil => rfl
  | cons p rest ih =>
      obtain ⟨k, v⟩ := p
      by_cases hk : k = s
      · simp [setQ, hk]
      · simp [setQ, hk, ih]

theorem lookupQ_setQ_self {R : Type} {qs : List (Nat × FQEntry R)} {s : Nat} {e : FQEntry R}
    (e' : FQEntry R) (h : lookupQ qs s = some e) :
    lookupQ (setQ qs s e') s = some e' := by
  induction qs with
  | nil => simp [lookupQ] at h
  | cons p rest ih =>
      obtain ⟨k, v⟩ := p
      by_cases hk : k = s
      · rw [setQ, if_pos hk, lookupQ, if_pos hk]
      · rw [lookupQ, if_neg hk] at h
        rw [setQ, if_neg hk, lookupQ, if_neg hk]
        exact ih h

theorem lookupQ_setQ_ne {R : Type} {qs : List (Nat × FQEntry R)} {s t : Nat}
    (e' : FQEntry R) (h : t ≠ s) : lookupQ (setQ qs s e') t = lookupQ qs t := by
  induction qs with
  | nil => rfl
  | cons p rest ih =>
      obtain ⟨k, v⟩ := p
      by_cases hk : k = s
      · have hkt : k ≠ t := by rw [hk]; exact fun hh => h hh.symm
        rw [setQ, if_pos hk, lookupQ, if_neg hkt, lookupQ, if_neg hkt]
      · rw [setQ, if_neg hk]
        by_cases hkt : k = t
        · rw [lookupQ, if_pos hkt, lookupQ, if_pos hkt]
        · rw [lookupQ, if_neg hkt, lookupQ, if_neg hkt]
          exact ih

theorem mem_setQ {R : Type} {qs : List (Nat × FQEntry R)} {s : Nat} {e' : FQEntry R}
    {p : Nat × FQEntry R} (h : p ∈ setQ qs s e') : (p.1 = s ∧ p.2 = e') ∨ p ∈ qs := by
  induction qs with
  | nil => simp [setQ] at h
  | cons q rest ih =>
      obtain ⟨k, v⟩ := q
      by_cases hk : k = s
      · rw [setQ, if_pos hk] at h
        rcases List.mem_cons.mp h with h | h
        · exact Or.inl (by rw [h, hk]; exact ⟨rfl, rfl⟩)
        · exact Or.inr (List.mem_cons_of_mem _ h)
      · rw [setQ, if_neg hk] at h
        rcases List.mem_cons.mp h with h | h
        · exact Or.inr (h ▸ List.mem_cons_self _ _)
        · rcases ih h with h' | h'
          · exact Or.inl h'
          · exact Or.inr (List.mem_cons_of_mem _ h')

theorem mem_insertQ {R : Type} {qs : List (Nat × FQEntry R)} {s : Nat} {e : FQEntry R}
    {p : Nat × FQEntry R} (h : p ∈ insertQ qs s e) : p = (s, e) ∨ p ∈ qs := by
  induction qs with
  | nil => simpa [insertQ] using h
  | cons q rest ih =>
      obtain ⟨k, v⟩ := q
      by_cases hs : s < k
      · rw [insertQ, if_pos hs] at h
        rcases List.mem_cons.mp h with h | h
        · exact Or.inl h
        · exact Or.inr h
      · rw [insertQ, if_neg hs] at h
        rcases List.mem_cons.mp h with h | h
        · exact Or.inr (h ▸ List.mem_cons_self _ _)
        · rcases ih h with h' | h'
          · exact Or.inl h'
          · exact Or.inr (List.mem_cons_of_mem _ h')

theorem mem_insertQ_of_mem {R : Type} {qs : List (Nat × FQEntry R)} {s : Nat} {e : FQEntry R}
    {p : Nat × FQEntry R} (h : p ∈ qs) : p ∈ insertQ qs s e := by
  induction qs with
  | nil => simp at h
  | cons q rest ih =>
      obtain ⟨k, v⟩ := q
      by_cases hs : s < k
      · rw [insertQ, if_pos hs]
        exact List.mem_cons_of_mem _ h
      · rw [insertQ, if_neg hs]
        rcases List.mem_cons.mp h with h | h
        · exact h ▸ List.mem_cons_self _ _
        · exact List.mem_cons_of_mem _ (ih h)

theorem lookupQ_insertQ_self {R : Type} {qs : List (Nat × FQEntry R)} {s : Nat}
    (e : FQEntry R) (h : lookupQ qs s = none) :
    lookupQ (insertQ qs s e) s = some e := by
  induction qs with
  | nil => rw [insertQ, lookupQ, if_pos rfl]
  | cons q rest ih =>
      obtain ⟨k, v⟩ := q
      by_cases hk : k = s
      · rw [lookupQ, if_pos hk] at h
        exact absurd h (by simp)
      · rw [lookupQ, if_neg hk] at h
        by_cases hs : s < k
        · rw [insertQ, if_pos hs, lookupQ, if_pos rfl]
        · rw [insertQ, if_neg hs, lookupQ, if_neg hk]
          exact ih h

theorem lookupQ_insertQ_ne {R : Type} {qs : List (Nat × FQEntry R)} {s t : Nat}
    (e : FQEntry R) (h : t ≠ s) : lookupQ (insertQ qs s e) t = lookupQ qs t := by
  induction qs with
  | nil =>
      simp [insertQ, lookupQ, Ne.symm h]
  | cons q rest ih =>
      obtain ⟨k, v⟩ := q
      by_cases hs : s < k
      · rw [insertQ, if_pos hs]
        rw [show lookupQ ((s, e) :: (k, v) :: rest) t
            = if s = t then some e else lookupQ ((k, v) :: rest) t from rfl]
        rw [if_neg (Ne.symm h)]
      · rw [insertQ, if_neg hs]
        by_cases hkt : k = t
        · rw [lookupQ, if_pos hkt, lookupQ, if_pos hkt]
        · rw [lookupQ, if_neg hkt, lookupQ, if_neg hkt]
          exact ih

theorem pairwise_keys_iff {R : Type} (qs : List (Nat × FQEntry R)) :
    qs.Pairwise (fun a b => a.1 < b.1) ↔ (qs.map Prod.fst).Pairwise (· < ·) :=
  List.pairwise_map.symm

theorem pairwise_insertQ {R : Type} {qs : List (Nat × FQEntry R)} {s : Nat} {e : FQEntry R}
    (hs : qs.Pairwise (fun a b => a.1 < b.1)) (hnone : lookupQ qs s = none) :
    (insertQ qs s e).Pairwise (fun a b => a.1 < b.1) := by
  induction qs with
  | nil => simp [insertQ]
  | cons q rest ih =>
      obtain ⟨k, v⟩ := q
      obtain ⟨hx, hrest⟩ := List.pairwise_cons.mp hs
      have hk : k ≠ s := by
        intro hh
        rw [lookupQ, if_pos hh] at hnone
        exact absurd hnone (by simp)
      rw [lookupQ, if_neg hk] at hnone
      by_cases hlt : s < k
      · rw [insertQ, if_pos hlt]
        refine List.pairwise_cons.mpr ⟨?_, hs⟩
        intro y hy
        rcases List.mem_cons.mp hy with h | h
        · rw [h]; exact hlt
        · exact Nat.lt_trans hlt (hx y h)
      · have hks : (k, v).1 < s := by
          simp only
          omega
        rw [insertQ, if_neg hlt]
        refine List.pairwise_cons.mpr ⟨?_, ih hrest hnone⟩
        intro y hy
        rcases mem_insertQ hy with h | h
        · rw [h]; exact hks
        · exact hx y h

theorem FQEntry.push_false_iff {R : Type} (e : FQEntry R) (r : R) :
    (e.push r).2 = false ↔ ¬e.requests.length < e.max_size := by
  unfold FQEntry.push
  by_cases hlt : e.requests.length < e.max_size <;> simp [hlt]

theorem FQEntry.push_fst_pos {R : Type} (e : FQEntry R) (r : R)
    (h : e.requests.length < e.max_size) :
    (e.push r).1 = { e with requests := e.requests ++ [r] } := by
  unfold FQEntry.push
  rw [if_pos h]

theorem FQEntry.push_fst_neg {R : Type} (e : FQEntry R) (r : R)
    (h : ¬e.requests.length < e.max_size) : (e.push r).1 = e := by
  unfold FQEntry.push
  rw [if_neg h]

/-! ## Block processor batch bounds (C1) -/

/-- The batch loop guard requires `processed < store_max` at every
iteration, so a batch never exceeds the store write-batch limit. -/
theorem processLoop_length_le_store {A : Type} (d : Nat → Bool) (bs sm : Nat) :
    ∀ (q : List A) (n : Nat), (processLoop d bs sm q n).length ≤ sm - n := by
  intro q
  induction q with
  | nil => intro n; simp [processLoop]
  | cons x rest ih =>
      intro n
      cases hg : ((!(d n) || decide (n < bs)) && decide (n < sm)) with
      | false => simp [processLoop, hg]
      | true =>
          have hn : n < sm := by
            have h2 := (Bool.and_eq_true _ _).mp hg |>.2
            simpa using h2
          have hrec := ih (n + 1)
          simp only [processLoop, hg, if_true, List.length_cons]
          omega

/-- Once the deadline holds from check `t` on, the loop can only continue
past `n` while `n < batch_size` or `n < t`. -/
theorem processLoop_length_le_deadline {A : Type} (d : Nat → Bool) (bs sm t : Nat)
    (hd : ∀ m, t ≤ m → d m = true) :
    ∀ (q : List A) (n : Nat), (processLoop d bs sm q n).length ≤ max bs t - n := by
  intro q
  induction q with
  | nil => intro n; simp [processLoop]
  | cons x rest ih =>
      intro n
      cases hg : ((!(d n) || decide (n < bs)) && decide (n < sm)) with
      | false => simp [processLoop, hg]
      | true =>
          have h1 := (Bool.and_eq_true _ _).mp hg |>.1
          have hn : n < max bs t := by
            rcases Bool.or_eq_true _ _ |>.mp h1 with h | h
            · have hnt : n < t := by
                by_contra hcon
                push_neg at hcon
                rw [hd n hcon] at h
                simp at h
              omega
            · have : n < bs := by simpa using h
              omega
          have hrec := ih (n + 1)
          simp only [processLoop, hg, if_true, List.length_cons]
          omega

/-- C1 (amended): within one batch, `process_batch` processes at most
`store.max_block_write_batch_num ()` blocks; the configured
`block_processor_batch_size` bounds the batch only in combination with
the deadline — if `block_processor_batch_max_time` has elapsed from the
`t`-th loop check onwards, at most `max (batch_size, t)` blocks are
processed.  The loop runs while the queue is non-empty, not
(deadline ∧ batch-size reached), and the store limit is not reached. -/
theorem block_processor_batch_bound {A : Type} (queue : List A) (d : Nat → Bool)
    (bs sm t : Nat) (hd : ∀ m, t ≤ m → d m = true) :
    (processBatch queue d bs sm).length ≤ sm
      ∧ (processBatch queue d bs sm).length ≤ max bs t := by
  constructor
  · have := processLoop_length_le_store d bs sm queue 0
    simpa [processBatch] using this
  · have := processLoop_length_le_deadline d bs sm t hd queue 0
    simpa [processBatch] using this

/-- Evaluation of `block_processor_batch_bound` on a concrete batch whose
deadline has already passed at the first check. -/
theorem block_processor_batch_bound_witness :
    (∀ m, 0 ≤ m → (fun _ => true) m = true)
      ∧ ((processBatch [1, 2, 3, 4] (fun _ => true) 2 10).length ≤ 10
          ∧ (processBatch [1, 2, 3, 4] (fun _ => true) 2 10).length ≤ max 2 0) :=
  ⟨fun _ _ => rfl, block_processor_batch_bound [1, 2, 3, 4] (fun _ => true) 2 10 0 (fun _ _ => rfl)⟩

/-- C1 counterexample: with configured batch size 1, store limit 3 and a
batch whose deadline never fires, the loop processes all 3 queued blocks,
exceeding `min (batch_size, store_max) = 1`. -/
theorem block_processor_batch_counterexample :
    (processBatch [1, 2, 3] (fun _ => false) 1 3).length = 3
      ∧ ¬((processBatch [1, 2, 3] (fun _ => false) 1 3).length ≤ min 1 3) := by
  decide

/-! ## Confirming set (C2) -/

/-- Provided `ledger.confirm` returns duplicate-free lists of
not-yet-confirmed blocks (its spec contract), the `cemented` list built
by `run_batch` has no duplicates and only blocks unconfirmed at batch
start. -/
theorem runBatch_cemented_fresh (cf : List Nat → Nat → List Nat)
    (hnd : ∀ L' h', (cf L' h').Nodup)
    (hnew : ∀ L' h', ∀ b ∈ cf L' h', b ∉ L') :
    ∀ (proc L : List Nat),
      (runBatch cf L proc).cemented.Nodup
        ∧ ∀ b ∈ (runBatch cf L proc).cemented, b ∉ L := by
  intro proc
  induction proc with
  | nil => intro L; simp [runBatch]
  | cons h rest ih =>
      intro L
      obtain ⟨ihnd, ihfresh⟩ := ih (L ++ cf L h)
      by_cases he : (cf L h).isEmpty
      · constructor
        · simpa [runBatch, he] using ihnd
        · intro b hb
          simp only [runBatch, he, if_true] at hb
          intro hbL
          exact ihfresh b hb (List.mem_append_left _ hbL)
      · constructor
        · simp only [runBatch, he, if_false, Bool.false_eq_true]
          rw [List.nodup_append]
          refine ⟨hnd L h, ihnd, ?_⟩
          intro a ha har
          exact ihfresh a har (List.mem_append_right _ ha)
        · intro b hb
          simp only [runBatch, he, if_false, Bool.false_eq_true] at hb
          rcases List.mem_append.mp hb with hb | hb
          · exact hnew L h b hb
          · intro hbL
            exact ihfresh b hb (List.mem_append_left _ hbL)

/-- C2 (amended): `confirming_set::add (h)` is a no-op exactly when `h`
is already in the front (`set`) buffer — membership in the
currently-processing batch does not prevent re-insertion — and after a
worker batch the `cemented` observer fires at most once per block whose
confirmation height actually advanced. -/
theorem confirming_set_dedup_and_cement_once
    (cs : ConfirmingSet) (h : Nat) (cf : List Nat → Nat → List Nat) (L proc : List Nat)
    (hnd : ∀ L' h', (cf L' h').Nodup)
    (hnew : ∀ L' h', ∀ b ∈ cf L' h', b ∉ L') :
    (cs.add h = (cs, false) ↔ h ∈ cs.pending)
      ∧ (runBatch cf L proc).cemented.Nodup := by
  constructor
  · constructor
    · intro hadd
      by_contra hmem
      simp [ConfirmingSet.add, hmem] at hadd
    · intro hmem
      simp [ConfirmingSet.add, hmem]
  · exact (runBatch_cemented_fresh cf hnd hnew proc L).1

/-- Evaluation of `confirming_set_dedup_and_cement_once` on a concrete
state and a concrete one-step ledger. -/
theorem confirming_set_dedup_and_cement_once_witness :
    ((ConfirmingSet.add ⟨[3], [9]⟩ 3 = (⟨[3], [9]⟩, false)) ↔ 3 ∈ (ConfirmingSet.mk [3] [9]).pending)
      ∧ (runBatch (fun L h => if h ∈ L then [] else [h]) [] [1, 2, 1]).cemented.Nodup :=
  confirming_set_dedup_and_cement_once ⟨[3], [9]⟩ 3 (fun L h => if h ∈ L then [] else [h]) [] [1, 2, 1]
    (fun L' h' => by by_cases hm : h' ∈ L' <;> simp [hm])
    (fun L' h' b hb => by
      by_cases hm : h' ∈ L' <;> simp [hm] at hb
      simpa [hb] using hm)

/-- C2 counterexample: hash 5 sits in the processing buffer (so
`exists (5)` is true) yet `add (5)` is not a no-op: it inserts the hash
into the front buffer again and reports it as newly added. -/
theorem confirming_set_dedup_counterexample :
    (ConfirmingSet.mk [] [5]).containsHash 5 = true
      ∧ (ConfirmingSet.add ⟨[], [5]⟩ 5).2 = true
      ∧ (ConfirmingSet.add ⟨[], [5]⟩ 5).1 ≠ ⟨[], [5]⟩ := by
  decide

/-! ## Active elections (C3, C4, C10) -/

/-- C3: two `insert` calls with blocks sharing one qualified root (the
first on a root with no live election and not recently confirmed) return
the same election both times and only the first reports
`inserted = true`. -/
theorem active_elections_insert_twice
    (ae : ActiveElections) (b1 b2 : Block) (beh1 bu1 pr1 beh2 bu2 pr2 : Nat)
    (hstop : ae.stopped = false)
    (hnone : alookup ae.elections b1.qualifiedRoot = none)
    (hrc : b1.qualifiedRoot ∉ ae.recentlyConfirmed)
    (hroot : b2.qualifiedRoot = b1.qualifiedRoot) :
    (ae.insert b1 beh1 bu1 pr1).1.2 = true
      ∧ (ae.insert b1 beh1 bu1 pr1).1.1.isSome = true
      ∧ (((ae.insert b1 beh1 bu1 pr1).2).insert b2 beh2 bu2 pr2).1.1
          = (ae.insert b1 beh1 bu1 pr1).1.1
      ∧ (((ae.insert b1 beh1 bu1 pr1).2).insert b2 beh2 bu2 pr2).1.2 = false := by
  simp [ActiveElections.insert, hstop, hnone, hrc, alookup, hroot]

/-- Evaluation of `active_elections_insert_twice` on a fresh state and
two forked blocks on root `(1, 2)`. -/
theorem active_elections_insert_twice_witness :
    ((ActiveElections.insert ⟨false, [], [], [], 0⟩ ⟨10, 1, 2⟩ 0 0 0).1.2 = true
      ∧ ((ActiveElections.insert ⟨false, [], [], [], 0⟩ ⟨10, 1, 2⟩ 0 0 0).1.1.isSome = true)
      ∧ (((ActiveElections.insert ⟨false, [], [], [], 0⟩ ⟨10, 1, 2⟩ 0 0 0).2).insert ⟨11, 1, 2⟩ 0 0 0).1.1
          = (ActiveElections.insert ⟨false, [], [], [], 0⟩ ⟨10, 1, 2⟩ 0 0 0).1.1
      ∧ (((ActiveElections.insert ⟨false, [], [], [], 0⟩ ⟨10, 1, 2⟩ 0 0 0).2).insert ⟨11, 1, 2⟩ 0 0 0).1.2
          = false) :=
  active_elections_insert_twice ⟨false, [], [], [], 0⟩ ⟨10, 1, 2⟩ ⟨11, 1, 2⟩ 0 0 0 0 0 0
    rfl rfl (by decide) rfl

/-- C4 (amended): when a qualified root is in the `recently_confirmed`
cache and no election is currently live for it, `insert` returns no
election with `inserted = false` and leaves the state unchanged.  (If an
election for the root is still in the table, the existing-election check
fires first and returns it instead — see the counterexample.) -/
theorem recently_confirmed_suppression (ae : ActiveElections) (b : Block) (beh bu pr : Nat)
    (hrc : b.qualifiedRoot ∈ ae.recentlyConfirmed)
    (hnone : alookup ae.elections b.qualifiedRoot = none) :
    ae.insert b beh bu pr = ((none, false), ae) := by
  by_cases hs : ae.stopped
  · simp [ActiveElections.insert, hs]
  · simp [ActiveElections.insert, hs, hnone, hrc]

/-- Evaluation of `recently_confirmed_suppression` on a concrete state
with root `(1, 2)` recently confirmed. -/
theorem recently_confirmed_suppression_witness :
    ActiveElections.insert ⟨false, [], [(1, 2)], [], 0⟩ ⟨9, 1, 2⟩ 0 0 0
      = ((none, false), ⟨false, [], [(1, 2)], [], 0⟩) :=
  recently_confirmed_suppression ⟨false, [], [(1, 2)], [], 0⟩ ⟨9, 1, 2⟩ 0 0 0 (by decide) rfl

/-- C4 counterexample: root `(1, 2)` is in `recently_confirmed`, but an
election for it is still in the table, so `insert` returns that election
(`some 7`) rather than no election — the existing-election check precedes
the recently-confirmed check. -/
theorem recently_confirmed_suppression_counterexample :
    ((1, 2) ∈ (ActiveElections.mk false [((1, 2), 7)] [(1, 2)] [] 8).recentlyConfirmed)
      ∧ (ActiveElections.insert ⟨false, [((1, 2), 7)], [(1, 2)], [], 8⟩ ⟨3, 1, 2⟩ 0 0 0).1.1
          = some 7 := by
  decide

/-- C10: after `stop ()` has set the `stopped` flag, `insert` returns no
election with `inserted = false` and leaves the election table, the vote
router registrations and the recently-confirmed cache untouched. -/
theorem insert_after_stop (ae : ActiveElections) (b : Block) (beh bu pr : Nat)
    (hstop : ae.stopped = true) :
    ae.insert b beh bu pr = ((none, false), ae) := by
  simp [ActiveElections.insert, hstop]

/-- Evaluation of `insert_after_stop` on a stopped state with non-trivial
tables. -/
theorem insert_after_stop_witness :
    ActiveElections.insert ⟨true, [((3, 4), 1)], [(5, 6)], [(7, 1)], 2⟩ ⟨8, 3, 4⟩ 1 2 3
      = ((none, false), ⟨true, [((3, 4), 1)], [(5, 6)], [(7, 1)], 2⟩) :=
  insert_after_stop ⟨true, [((3, 4), 1)], [(5, 6)], [(7, 1)], 2⟩ ⟨8, 3, 4⟩ 1 2 3 rfl

/-! ## Scheduler bucket (C8) -/

theorem entryLt_trans {a b c : Nat × Nat} (h1 : entryLt a b) (h2 : entryLt b c) :
    entryLt a c := by
  unfold entryLt at *
  omega

theorem entryLt_of_not (a b : Nat × Nat) (hlt : ¬entryLt a b) (hne : a ≠ b) :
    entryLt b a := by
  unfold entryLt at *
  have : a.1 ≠ b.1 ∨ a.2 ≠ b.2 := by
    by_contra hcon
    push_neg at hcon
    exact hne (Prod.ext hcon.1 hcon.2)
  omega

/-- The pushed entry is present after `std::set::insert`. -/
theorem mem_insertEntry_self (e : Nat × Nat) (q : List (Nat × Nat)) :
    e ∈ insertEntry e q := by
  induction q with
  | nil => simp [insertEntry]
  | cons x rest ih =>
      by_cases h1 : entryLt e x
      · simp [insertEntry, h1]
      · by_cases h2 : e = x
        · rw [insertEntry, if_neg h1, if_pos h2, h2]
          exact List.mem_cons_self x rest
        · rw [insertEntry, if_neg h1, if_neg h2]
          exact List.mem_cons_of_mem _ ih

/-- Everything in an inserted queue is the new entry or an old member. -/
theorem mem_insertEntry {e a : Nat × Nat} {q : List (Nat × Nat)}
    (h : a ∈ insertEntry e q) : a = e ∨ a ∈ q := by
  induction q with
  | nil => simpa [insertEntry] using h
  | cons x rest ih =>
      by_cases h1 : entryLt e x
      · rw [insertEntry, if_pos h1] at h
        rcases List.mem_cons.mp h with h | h
        · exact Or.inl h
        · exact Or.inr h
      · by_cases h2 : e = x
        · rw [insertEntry, if_neg h1, if_pos h2] at h
          exact Or.inr h
        · rw [insertEntry, if_neg h1, if_neg h2] at h
          rcases List.mem_cons.mp h with h | h
          · exact Or.inr (h ▸ List.mem_cons_self x rest)
          · rcases ih h with h' | h'
            · exact Or.inl h'
            · exact Or.inr (List.mem_cons_of_mem _ h')

/-- Insertion into the sorted queue (`std::set::insert`) keeps it strictly sorted. -/
theorem pairwise_insertEntry (e : Nat × Nat) (q : List (Nat × Nat))
    (hs : q.Pairwise entryLt) : (insertEntry e q).Pairwise entryLt := by
  induction q with
  | nil => simp [insertEntry]
  | cons x rest ih =>
      obtain ⟨hx, hrest⟩ := List.pairwise_cons.mp hs
      by_cases h1 : entryLt e x
      · rw [insertEntry, if_pos h1]
        refine List.pairwise_cons.mpr ⟨?_, hs⟩
        intro y hy
        rcases List.mem_cons.mp hy with h | h
        · rw [h]; exact h1
        · exact entryLt_trans h1 (hx y h)
      · by_cases h2 : e = x
        · rw [insertEntry, if_neg h1, if_pos h2]
          exact hs
        · rw [insertEntry, if_neg h1, if_neg h2]
          refine List.pairwise_cons.mpr ⟨?_, ih hrest⟩
          intro y hy
          rcases mem_insertEntry hy with h | h
          · rw [h]; exact entryLt_of_not e x h1 h2
          · exact hx y h

/-- Insertion grows the queue by at most one element. -/
theorem insertEntry_length_le (e : Nat × Nat) (q : List (Nat × Nat)) :
    (insertEntry e q).length ≤ q.length + 1 := by
  induction q with
  | nil => simp [insertEntry]
  | cons x rest ih =>
      by_cases h1 : entryLt e x
      · simp [insertEntry, h1]
      · by_cases h2 : e = x
        · rw [insertEntry, if_neg h1, if_pos h2]
          simp
        · rw [insertEntry, if_neg h1, if_neg h2]
          simp only [List.length_cons]
          omega

/-- In a strictly sorted non-empty list, every element of `dropLast` is
below the last element. -/
theorem sorted_dropLast_lt_getLast {q : List (Nat × Nat)} (hs : q.Pairwise entryLt)
    (hne : q ≠ []) : ∀ x ∈ q.dropLast, entryLt x (q.getLast hne) := by
  intro x hx
  have hdecomp : q.dropLast ++ [q.getLast hne] = q := List.dropLast_append_getLast hne
  rw [← hdecomp] at hs
  have := (List.pairwise_append.mp hs).2.2
  exact this x hx (q.getLast hne) (List.mem_singleton_self _)

/-- C8: `bucket::push` inserts the entry; when the insertion overfills
`max_blocks` it erases exactly the greatest entry in the
`(priority_time, hash)` order, so the queue size stays within
`max_blocks`. -/
theorem bucket_push_bounded (maxBlocks : Nat) (e : Nat × Nat) (q : List (Nat × Nat))
    (hsorted : q.Pairwise entryLt) (hlen : q.length ≤ maxBlocks) :
    e ∈ insertEntry e q
      ∧ (bucketPush maxBlocks e q).length ≤ maxBlocks
      ∧ ((insertEntry e q).length ≤ maxBlocks → bucketPush maxBlocks e q = insertEntry e q)
      ∧ (maxBlocks < (insertEntry e q).length →
          ∃ w, insertEntry e q = bucketPush maxBlocks e q ++ [w]
            ∧ ∀ x ∈ bucketPush maxBlocks e q, entryLt x w) := by
  have hlen1 := insertEntry_length_le e q
  have hs1 := pairwise_insertEntry e q hsorted
  refine ⟨mem_insertEntry_self e q, ?_, ?_, ?_⟩
  · by_cases hov : maxBlocks < (insertEntry e q).length
    · simp only [bucketPush, if_pos hov, List.length_dropLast]
      omega
    · simp only [bucketPush, if_neg hov]
      omega
  · intro hle
    have : ¬maxBlocks < (insertEntry e q).length := by omega
    simp [bucketPush, this]
  · intro hov
    have hne : insertEntry e q ≠ [] := by
      intro hcon
      rw [hcon] at hov
      simp at hov
    refine ⟨(insertEntry e q).getLast hne, ?_, ?_⟩
    · simp only [bucketPush, if_pos hov]
      exact (List.dropLast_append_getLast hne).symm
    · simp only [bucketPush, if_pos hov]
      exact sorted_dropLast_lt_getLast hs1 hne

/-- Evaluation of `bucket_push_bounded`: pushing `(1, 9)` into a full
3-entry bucket evicts the worst entry `(8, 0)`. -/
theorem bucket_push_bounded_witness :
    ((1, 9) ∈ insertEntry (1, 9) [(2, 5), (4, 1), (8, 0)]
      ∧ (bucketPush 3 (1, 9) [(2, 5), (4, 1), (8, 0)]).length ≤ 3
      ∧ ((insertEntry (1, 9) [(2, 5), (4, 1), (8, 0)]).length ≤ 3 →
          bucketPush 3 (1, 9) [(2, 5), (4, 1), (8, 0)] = insertEntry (1, 9) [(2, 5), (4, 1), (8, 0)])
      ∧ (3 < (insertEntry (1, 9) [(2, 5), (4, 1), (8, 0)]).length →
          ∃ w, insertEntry (1, 9) [(2, 5), (4, 1), (8, 0)]
              = bucketPush 3 (1, 9) [(2, 5), (4, 1), (8, 0)] ++ [w]
            ∧ ∀ x ∈ bucketPush 3 (1, 9) [(2, 5), (4, 1), (8, 0)], entryLt x w)) :=
  bucket_push_bounded 3 (1, 9) [(2, 5), (4, 1), (8, 0)]
    (by unfold entryLt; decide) (by decide)

/-! ## TCP channel send queue (C9) -/

/-- Capacity invariant for reachable channel states. -/
theorem channel_reach_len {c : TcpChannel} (hreach : ChannelReach c) :
    ∀ t, (c.q t).length ≤ channelMaxSize := by
  induction hreach with
  | init => intro t; simp
  | send c t e _ ih =>
      intro u
      by_cases hfull : c.fullFor t
      · simpa [TcpChannel.sendBuffer, hfull] using ih u
      · have hlt : (c.q t).length < channelFullSize := by
          unfold TcpChannel.fullFor at hfull
          simpa using hfull
        unfold channelFullSize at hlt
        by_cases hu : u = t
        · subst hu
          simp [TcpChannel.sendBuffer, hfull, channelMaxSize]
          omega
        · simpa [TcpChannel.sendBuffer, hfull, hu] using ih u
  | process c t _ ih =>
      intro u
      match hq : c.q t with
      | [] => simpa [TcpChannel.processOne, hq] using ih u
      | e :: rest =>
          have hlen := ih u
          by_cases hu : u = t
          · subst hu
            rw [hq] at hlen
            simp only [List.length_cons] at hlen
            simp [TcpChannel.processOne, hq]
            omega
          · simpa [TcpChannel.processOne, hq, hu] using hlen

/-- C9: on every reachable channel, each per-traffic-type send queue
holds at most 128 entries; `send_buffer` on a full queue returns
Dropped and leaves the channel — in particular the record of invoked
completion callbacks — unchanged, and `send_buffer` itself never invokes
a completion callback. -/
theorem tcp_channel_queue_capacity (c : TcpChannel) (hreach : ChannelReach c) :
    (∀ t, (c.q t).length ≤ channelMaxSize)
      ∧ (∀ t e, c.fullFor t = true → c.sendBuffer t e = (c, false))
      ∧ (∀ t e, ((c.sendBuffer t e).1).invoked = c.invoked) := by
  refine ⟨channel_reach_len hreach, ?_, ?_⟩
  · intro t e hfull
    simp [TcpChannel.sendBuffer, hfull]
  · intro t e
    by_cases hfull : c.fullFor t
    · simp [TcpChannel.sendBuffer, hfull]
    · simp [TcpChannel.sendBuffer, hfull]

/-- Pushing a list of entries (`sendMany`) keeps channels reachable. -/
theorem channel_reach_sendMany {c : TcpChannel} (t : TrafficType) (es : List Nat)
    (hc : ChannelReach c) : ChannelReach (sendMany c t es) := by
  induction es generalizing c with
  | nil => exact hc
  | cons e rest ih =>
      exact ih (ChannelReach.send c t e hc)

set_option maxRecDepth 8000

/-! ## Seek-target lemmas -/

theorem mem_of_mem_rotation {R : Type} {qs : List (Nat × FQEntry R)} {c : Option Nat}
    {p : Nat × FQEntry R} (h : p ∈ rotationFrom qs c) : p ∈ qs := by
  cases c with
  | none => exact h
  | some k =>
      rcases List.mem_append.mp h with h | h
      · exact List.mem_of_mem_filter h
      · exact List.mem_of_mem_filter h

theorem mem_rotation_of_mem {R : Type} {qs : List (Nat × FQEntry R)} (c : Option Nat)
    {p : Nat × FQEntry R} (h : p ∈ qs) : p ∈ rotationFrom qs c := by
  cases c with
  | none => exact h
  | some k =>
      by_cases hk : k < p.1
      · exact List.mem_append_left _ (List.mem_filter.mpr ⟨h, by simpa using hk⟩)
      · exact List.mem_append_right _ (List.mem_filter.mpr ⟨h, by simp; omega⟩)

theorem seekTarget_spec {R : Type} {fq : FairQueue R}
    (hnd : (fq.queues.map Prod.fst).Nodup) {k : Nat} (h : seekTarget fq = some k) :
    ∃ e, lookupQ fq.queues k = some e ∧ e.requests ≠ [] := by
  unfold seekTarget at h
  rcases Option.map_eq_some'.mp h with ⟨p, hfind, hpk⟩
  have hmem := List.mem_of_find?_eq_some hfind
  have hpred := List.find?_some hfind
  have hqs := mem_of_mem_rotation hmem
  refine ⟨p.2, ?_, ?_⟩
  · rw [← hpk]
    exact lookupQ_of_mem_nodup hnd hqs
  · intro hcon
    rw [hcon] at hpred
    simp at hpred

theorem seekTarget_isSome {R : Type} {fq : FairQueue R} (hne : fq.isEmpty = false) :
    ∃ k, seekTarget fq = some k := by
  unfold FairQueue.isEmpty at hne
  obtain ⟨p, hp, hpe⟩ : ∃ p ∈ fq.queues, ¬p.2.requests.isEmpty = true := by
    by_contra hcon
    push_neg at hcon
    have hall : fq.queues.all (fun p => p.2.requests.isEmpty) = true :=
      List.all_eq_true.mpr hcon
    simp [hall] at hne
  have hrot := mem_rotation_of_mem fq.cursor hp
  have hfind : ((rotationFrom fq.queues fq.cursor).find?
      (fun p => !p.2.requests.isEmpty)).isSome = true :=
    List.find?_isSome.mpr ⟨p, hrot, by simp [hpe]⟩
  obtain ⟨q, hq⟩ := Option.isSome_iff_exists.mp hfind
  refine ⟨q.1, ?_⟩
  unfold seekTarget
  rw [hq]
  rfl

/-! ## Fair-queue invariant (C5) -/

theorem cursorOK_of_lookup {R : Type} {fq : FairQueue R}
    (h : ∀ k, fq.cursor = some k → (lookupQ fq.queues k).isSome = true) :
    cursorOK fq = true := by
  unfold cursorOK
  cases hc : fq.cursor with
  | none => rfl
  | some k => exact h k hc

theorem cursorOK_lookup {R : Type} {fq : FairQueue R} (h : cursorOK fq = true) {k : Nat}
    (hc : fq.cursor = some k) : (lookupQ fq.queues k).isSome = true := by
  unfold cursorOK at h
  rw [hc] at h
  exact h

theorem fqinv_push {R : Type} {fq : FairQueue R} (hinv : FQInv fq) (r : R) (s : Nat) :
    FQInv (fq.push r s).1 := by
  obtain ⟨hsort, hent, hcur⟩ := hinv
  cases hl : lookupQ fq.queues s with
  | some e =>
      have hq : (fq.push r s).1 = { fq with queues := setQ fq.queues s (e.push r).1 } := by
        unfold FairQueue.push
        rw [hl]
      rw [hq]
      refine ⟨?_, ?_, ?_⟩
      · exact (pairwise_keys_iff _).mpr
          (by rw [setQ_map_fst]; exact (pairwise_keys_iff _).mp hsort)
      · intro p hp
        rcases mem_setQ hp with hps | hps
        · obtain ⟨hp1, hp2⟩ := hps
          obtain ⟨hm, hpr, hle⟩ := hent (s, e) (lookupQ_eq_some_mem hl)
          rw [hp2, hp1]
          by_cases hlt : e.requests.length < e.max_size
          · rw [FQEntry.push_fst_pos e r hlt]
            exact ⟨hm, hpr, by simp; omega⟩
          · rw [FQEntry.push_fst_neg e r hlt]
            exact ⟨hm, hpr, hle⟩
        · exact hent p hps
      · apply cursorOK_of_lookup
        intro k hc
        have hc' : fq.cursor = some k := hc
        have hcur' := cursorOK_lookup hcur hc'
        show (lookupQ (setQ fq.queues s (e.push r).1) k).isSome = true
        by_cases hk : k = s
        · subst hk
          rw [lookupQ_setQ_self _ hl]
          rfl
        · rw [lookupQ_setQ_ne _ hk]
          exact hcur'
  | none =>
      have hq : (fq.push r s).1 = { fq with
          queues := insertQ fq.queues s
            ((FQEntry.mk ([] : List R) (fq.priority_query s) (fq.max_size_query s)).push r).1 } := by
        unfold FairQueue.push
        rw [hl]
      rw [hq]
      refine ⟨?_, ?_, ?_⟩
      · exact pairwise_insertQ hsort hl
      · intro p hp
        rcases mem_insertQ hp with hps | hps
        · rw [hps]
          by_cases hlt :
              (FQEntry.mk ([] : List R) (fq.priority_query s) (fq.max_size_query s)).requests.length
                < (FQEntry.mk ([] : List R) (fq.priority_query s) (fq.max_size_query s)).max_size
          · rw [FQEntry.push_fst_pos _ r hlt]
            refine ⟨rfl, rfl, ?_⟩
            simp only [List.nil_append, List.length_singleton]
            simpa using hlt
          · rw [FQEntry.push_fst_neg _ r hlt]
            exact ⟨rfl, rfl, by simp⟩
        · exact hent p hps
      · apply cursorOK_of_lookup
        intro k hc
        have hc' : fq.cursor = some k := hc
        have hcur' := cursorOK_lookup hcur hc'
        show (lookupQ (insertQ fq.queues s
            ((FQEntry.mk ([] : List R) (fq.priority_query s) (fq.max_size_query s)).push r).1)
          k).isSome = true
        have hk : k ≠ s := by
          intro hh
          rw [hh, hl] at hcur'
          simp at hcur'
        rw [lookupQ_insertQ_ne _ hk]
        exact hcur'

theorem nextFrom_eq_some {R : Type} {fq : FairQueue R} {r : R} {k : Nat} {fq' : FairQueue R}
    (h : nextFrom fq = some ((r, k), fq')) :
    fq.cursor = some k
      ∧ ∃ e rest, lookupQ fq.queues k = some e ∧ e.requests = r :: rest
        ∧ fq' = { fq with
            queues := setQ fq.queues k { e with requests := rest },
            counter := fq.counter + 1 } := by
  unfold nextFrom at h
  cases hc : fq.cursor with
  | none => rw [hc, Option.none_bind] at h; simp at h
  | some k0 =>
      rw [hc, Option.some_bind] at h
      cases he : lookupQ fq.queues k0 with
      | none => rw [he, Option.none_bind] at h; simp at h
      | some e =>
          rw [he, Option.some_bind] at h
          cases hr : e.requests with
          | nil => rw [hr] at h; simp at h
          | cons r0 rest =>
              rw [hr] at h
              simp only [Option.some.injEq, Prod.mk.injEq] at h
              obtain ⟨⟨hr0, hk0⟩, hfq⟩ := h
              subst hr0
              subst hk0
              exact ⟨rfl, e, rest, he, hr, hfq.symm⟩

theorem nextFrom_some_of {R : Type} {fq : FairQueue R} {k : Nat} {e : FQEntry R} {r : R}
    {rest : List R} (hc : fq.cursor = some k) (he : lookupQ fq.queues k = some e)
    (hr : e.requests = r :: rest) :
    nextFrom fq = some ((r, k),
      { fq with
        queues := setQ fq.queues k { e with requests := rest },
        counter := fq.counter + 1 }) := by
  unfold nextFrom
  rw [hc, Option.some_bind, he, Option.some_bind, hr]

theorem fqinv_nextFrom {R : Type} {fq fq' : FairQueue R} {v : R × Nat}
    (hinv : FQInv fq) (h : nextFrom fq = some (v, fq')) : FQInv fq' := by
  obtain ⟨r, k⟩ := v
  obtain ⟨hc, e, rest, he, hr, hfq⟩ := nextFrom_eq_some h
  obtain ⟨hsort, hent, hcur⟩ := hinv
  subst hfq
  refine ⟨?_, ?_, ?_⟩
  · exact (pairwise_keys_iff _).mpr
      (by rw [setQ_map_fst]; exact (pairwise_keys_iff _).mp hsort)
  · intro p hp
    rcases mem_setQ hp with hps | hps
    · obtain ⟨hp1, hp2⟩ := hps
      obtain ⟨hm, hpr, hle⟩ := hent (k, e) (lookupQ_eq_some_mem he)
      rw [hp2, hp1]
      refine ⟨hm, hpr, ?_⟩
      rw [hr] at hle
      simp only [List.length_cons] at hle
      simp only
      omega
    · exact hent p hps
  · apply cursorOK_of_lookup
    intro k' hck
    have hck' : fq.cursor = some k' := hck
    rw [hc] at hck'
    have hkk : k' = k := (Option.some.inj hck').symm
    subst hkk
    show (lookupQ (setQ fq.queues k' { e with requests := rest }) k').isSome = true
    rw [lookupQ_setQ_self _ he]
    rfl

theorem fqinv_seek {R : Type} {fq : FairQueue R} (hinv : FQInv fq) :
    FQInv { fq with cursor := seekTarget fq, counter := 0 } := by
  obtain ⟨hsort, hent, hcur⟩ := hinv
  refine ⟨hsort, hent, ?_⟩
  apply cursorOK_of_lookup
  intro k hck
  have hck' : seekTarget fq = some k := hck
  obtain ⟨e, he, hne⟩ := seekTarget_spec (keys_nodup hsort) hck'
  show (lookupQ fq.queues k).isSome = true
  rw [he]
  rfl

theorem fqinv_next {R : Type} {fq fq' : FairQueue R} {v : R × Nat}
    (hinv : FQInv fq) (h : fq.next = some (v, fq')) : FQInv fq' := by
  unfold FairQueue.next at h
  by_cases hs : shouldSeek fq = true
  · rw [if_pos hs] at h
    exact fqinv_nextFrom (fqinv_seek hinv) h
  · rw [if_neg hs] at h
    exact fqinv_nextFrom hinv h

theorem fqinv_clear {R : Type} (fq : FairQueue R) :
    FQInv { fq with queues := ([] : List (Nat × FQEntry R)), cursor := none } := by
  refine ⟨List.Pairwise.nil, ?_, rfl⟩
  intro p hp
  simp at hp

theorem fqinv_cleanup {R : Type} {fq : FairQueue R} (hinv : FQInv fq) (alive : Nat → Bool) :
    FQInv { fq with cursor := none, queues := fq.queues.filter (fun p => alive p.1) } := by
  obtain ⟨hsort, hent, hcur⟩ := hinv
  refine ⟨?_, ?_, rfl⟩
  · exact List.Pairwise.sublist (List.filter_sublist _) hsort
  · intro p hp
    exact hent p (List.mem_of_mem_filter hp)

theorem fqinv_update {R : Type} {fq : FairQueue R} (hinv : FQInv fq) :
    FQInv { fq with
      queues := fq.queues.map (fun p =>
        (p.1, { p.2 with
          max_size := fq.max_size_query p.1, priority := fq.priority_query p.1 })) } := by
  obtain ⟨hsort, hent, hcur⟩ := hinv
  refine ⟨?_, ?_, ?_⟩
  · refine List.pairwise_map.mpr (hsort.imp ?_)
    intro a b hab
    simpa using hab
  · intro p hp
    obtain ⟨p0, hp0, hpe⟩ := List.mem_map.mp hp
    obtain ⟨hm, hpr, hle⟩ := hent p0 hp0
    rw [← hpe]
    refine ⟨rfl, rfl, ?_⟩
    simp only
    rw [← hm]
    exact hle
  · apply cursorOK_of_lookup
    intro k hck
    have hck' : fq.cursor = some k := hck
    have hcur' := cursorOK_lookup hcur hck'
    show (lookupQ (fq.queues.map (fun p =>
        (p.1, { p.2 with
          max_size := fq.max_size_query p.1, priority := fq.priority_query p.1 })))
      k).isSome = true
    rw [lookupQ_isSome_iff] at hcur' ⊢
    rw [List.map_map]
    simpa using hcur'

theorem fqreach_inv {R : Type} {fq : FairQueue R} (h : FQReach fq) : FQInv fq := by
  induction h with
  | init maxQ prioQ =>
      exact ⟨List.Pairwise.nil, by intro p hp; simp at hp, rfl⟩
  | step fq fq' hreach hstep ih =>
      cases hstep with
      | push r s => exact fqinv_push ih r s
      | next fq2 v hnext => exact fqinv_next ih hnext
      | clear => exact fqinv_clear fq
      | cleanup alive => exact fqinv_cleanup ih alive
      | update => exact fqinv_update ih

/-- C5: on every reachable fair queue, each source's FIFO stays within
its configured capacity, and a `push` to an existing source returns
Dropped exactly when the source sits at capacity. -/
theorem fair_queue_capacity (fq : FairQueue Nat) (hreach : FQReach fq) (r s : Nat)
    (hs : (lookupQ fq.queues s).isSome = true) :
    (∀ t, fq.size t ≤ fq.maxSizeOf t)
      ∧ ((fq.push r s).2 = false ↔ fq.size s = fq.maxSizeOf s) := by
  obtain ⟨hsort, hent, hcur⟩ := fqreach_inv hreach
  constructor
  · intro t
    unfold FairQueue.size FairQueue.maxSizeOf
    cases hl : lookupQ fq.queues t with
    | none => simp
    | some e =>
        have := hent (t, e) (lookupQ_eq_some_mem hl)
        simpa using this.2.2
  · obtain ⟨e, he⟩ := Option.isSome_iff_exists.mp hs
    have hwf := hent (s, e) (lookupQ_eq_some_mem he)
    have hle : e.requests.length ≤ e.max_size := hwf.2.2
    have hpush : (fq.push r s).2 = (e.push r).2 := by
      unfold FairQueue.push
      rw [he]
    have hsize : fq.size s = e.requests.length := by
      unfold FairQueue.size
      rw [he]
      rfl
    have hmax : fq.maxSizeOf s = e.max_size := by
      unfold FairQueue.maxSizeOf
      rw [he]
      rfl
    rw [hpush, hsize, hmax, FQEntry.push_false_iff]
    omega

/-! ## Fair-queue FIFO order (C6) -/

theorem push_queues_some {R : Type} {fq : FairQueue R} {r : R} {s0 : Nat} {e : FQEntry R}
    (hl : lookupQ fq.queues s0 = some e) :
    (fq.push r s0).1.queues = setQ fq.queues s0 (e.push r).1 := by
  unfold FairQueue.push
  rw [hl]

theorem push_queues_none {R : Type} {fq : FairQueue R} {r : R} {s0 : Nat}
    (hl : lookupQ fq.queues s0 = none) :
    (fq.push r s0).1.queues = insertQ fq.queues s0
      ((FQEntry.mk ([] : List R) (fq.priority_query s0) (fq.max_size_query s0)).push r).1 := by
  unfold FairQueue.push
  rw [hl]

theorem push_snd_some {R : Type} {fq : FairQueue R} {r : R} {s0 : Nat} {e : FQEntry R}
    (hl : lookupQ fq.queues s0 = some e) : (fq.push r s0).2 = (e.push r).2 := by
  unfold FairQueue.push
  rw [hl]

theorem push_snd_none {R : Type} {fq : FairQueue R} {r : R} {s0 : Nat}
    (hl : lookupQ fq.queues s0 = none) :
    (fq.push r s0).2
      = ((FQEntry.mk ([] : List R) (fq.priority_query s0) (fq.max_size_query s0)).push r).2 := by
  unfold FairQueue.push
  rw [hl]

theorem push_requests_ne {R : Type} {fq : FairQueue R} (r : R) {s0 s : Nat} (h : s ≠ s0) :
    requestsOf (fq.push r s0).1 s = requestsOf fq s := by
  unfold requestsOf
  cases hl : lookupQ fq.queues s0 with
  | some e => rw [push_queues_some hl, lookupQ_setQ_ne _ h]
  | none => rw [push_queues_none hl, lookupQ_insertQ_ne _ h]

theorem push_requests_self_true {R : Type} {fq : FairQueue R} {r : R} {s0 : Nat}
    (h : (fq.push r s0).2 = true) :
    requestsOf (fq.push r s0).1 s0 = requestsOf fq s0 ++ [r] := by
  unfold requestsOf
  cases hl : lookupQ fq.queues s0 with
  | some e =>
      rw [push_snd_some hl] at h
      have hlt : e.requests.length < e.max_size := by
        by_contra hcon
        rw [(FQEntry.push_false_iff e r).mpr hcon] at h
        simp at h
      rw [push_queues_some hl, lookupQ_setQ_self _ hl, FQEntry.push_fst_pos e r hlt]
      rfl
  | none =>
      rw [push_snd_none hl] at h
      have hlt : (FQEntry.mk ([] : List R) (fq.priority_query s0)
          (fq.max_size_query s0)).requests.length
            < (FQEntry.mk ([] : List R) (fq.priority_query s0) (fq.max_size_query s0)).max_size := by
        by_contra hcon
        rw [(FQEntry.push_false_iff _ r).mpr hcon] at h
        simp at h
      rw [push_queues_none hl, lookupQ_insertQ_self _ hl, FQEntry.push_fst_pos _ r hlt]
      rfl

theorem push_requests_self_false {R : Type} {fq : FairQueue R} {r : R} {s0 : Nat}
    (h : (fq.push r s0).2 = false) :
    requestsOf (fq.push r s0).1 s0 = requestsOf fq s0 := by
  unfold requestsOf
  cases hl : lookupQ fq.queues s0 with
  | some e =>
      rw [push_snd_some hl] at h
      have hge := (FQEntry.push_false_iff e r).mp h
      rw [push_queues_some hl, lookupQ_setQ_self _ hl, FQEntry.push_fst_neg e r hge]
  | none =>
      rw [push_snd_none hl] at h
      have hge := (FQEntry.push_false_iff _ r).mp h
      rw [push_queues_none hl, lookupQ_insertQ_self _ hl, FQEntry.push_fst_neg _ r hge]
      rfl

theorem forSource_append {R : Type} (s : Nat) (l1 l2 : List (R × Nat)) :
    forSource s (l1 ++ l2) = forSource s l1 ++ forSource s l2 := by
  unfold forSource
  rw [List.filter_append, List.map_append]

theorem forSource_single_self {R : Type} (s : Nat) (r : R) : forSource s [(r, s)] = [r] := by
  simp [forSource]

theorem forSource_single_ne {R : Type} {s s' : Nat} (r : R) (h : s' ≠ s) :
    forSource s [(r, s')] = [] := by
  simp [forSource, h]

/-- The `next` wrapper only adjusts the cursor before `nextFrom`, so a
successful `next` pops the head of one source's FIFO. -/
theorem next_eq_some {R : Type} {fq : FairQueue R} {r : R} {k : Nat} {fq' : FairQueue R}
    (h : fq.next = some ((r, k), fq')) :
    ∃ e rest, lookupQ fq.queues k = some e ∧ e.requests = r :: rest
      ∧ fq'.queues = setQ fq.queues k { e with requests := rest } := by
  unfold FairQueue.next at h
  by_cases hs : shouldSeek fq = true
  · rw [if_pos hs] at h
    obtain ⟨hc, e, rest, he, hr, hfq⟩ := nextFrom_eq_some h
    exact ⟨e, rest, he, hr, by rw [hfq]⟩
  · rw [if_neg hs] at h
    obtain ⟨hc, e, rest, he, hr, hfq⟩ := nextFrom_eq_some h
    exact ⟨e, rest, he, hr, by rw [hfq]⟩

/-- The per-trace invariant: the state is well formed, and for every
source the accepted pushes are exactly the popped items followed by the
pending FIFO. -/
def TraceInv {R : Type} (t : FQTrace R) : Prop :=
  FQInv t.state
    ∧ ∀ s, forSource s t.accepted = forSource s t.popped ++ requestsOf t.state s

theorem traceInv_push {R : Type} {t : FQTrace R} (h : TraceInv t) (r : R) (s0 : Nat) :
    TraceInv (runOp t (.push r s0)) := by
  obtain ⟨hinv, heq⟩ := h
  constructor
  · exact fqinv_push hinv r s0
  · intro s
    show forSource s (if (t.state.push r s0).2 then t.accepted ++ [(r, s0)] else t.accepted)
        = forSource s t.popped ++ requestsOf (t.state.push r s0).1 s
    cases hb : (t.state.push r s0).2 with
    | true =>
        rw [if_pos rfl]
        by_cases hss : s = s0
        · subst hss
          rw [forSource_append, forSource_single_self, push_requests_self_true hb, heq s,
            List.append_assoc]
        · rw [forSource_append, forSource_single_ne r (fun hh => hss hh.symm),
            push_requests_ne r hss, heq s, List.append_nil]
    | false =>
        rw [if_neg Bool.false_ne_true]
        by_cases hss : s = s0
        · subst hss
          rw [push_requests_self_false hb]
          exact heq s
        · rw [push_requests_ne r hss]
          exact heq s

theorem traceInv_next {R : Type} {t : FQTrace R} (h : TraceInv t) :
    TraceInv (runOp t .next) := by
  obtain ⟨hinv, heq⟩ := h
  show TraceInv (match t.state.next with
    | some (v, fq') => { t with state := fq', popped := t.popped ++ [v] }
    | none => t)
  cases hn : t.state.next with
  | none => exact ⟨hinv, heq⟩
  | some p =>
      obtain ⟨⟨r, k⟩, fq'⟩ := p
      obtain ⟨e, rest, he, hr, hq'⟩ := next_eq_some hn
      constructor
      · exact fqinv_next hinv hn
      · intro s
        show forSource s t.accepted
            = forSource s (t.popped ++ [(r, k)]) ++ requestsOf fq' s
        by_cases hss : s = k
        · subst hss
          have hreq : requestsOf fq' s = rest := by
            unfold requestsOf
            rw [hq', lookupQ_setQ_self _ he]
            rfl
          have hreqold : requestsOf t.state s = r :: rest := by
            unfold requestsOf
            rw [he]
            exact hr
          rw [forSource_append, forSource_single_self, hreq, heq s, hreqold,
            List.append_assoc]
          rfl
        · have hreq : requestsOf fq' s = requestsOf t.state s := by
            unfold requestsOf
            rw [hq', lookupQ_setQ_ne _ hss]
          rw [forSource_append, forSource_single_ne r (fun hh => hss hh.symm), hreq,
            List.append_nil]
          exact heq s

/-- C6: for the whole history of any push/next interleaving on a fresh
fair queue, the items accepted for a source are exactly the items
returned by `next` for that source — in order — followed by the source's
pending FIFO: strict FIFO per source. -/
theorem fair_queue_fifo (maxQ prioQ : Nat → Nat) (ops : List (FQOp Nat)) (s : Nat) :
    forSource s (runOps (initTrace maxQ prioQ) ops).accepted
      = forSource s (runOps (initTrace maxQ prioQ) ops).popped
        ++ requestsOf (runOps (initTrace maxQ prioQ) ops).state s := by
  have hstart : TraceInv (initTrace maxQ prioQ : FQTrace Nat) := by
    constructor
    · exact ⟨List.Pairwise.nil, fun p hp => (List.not_mem_nil p hp).elim, rfl⟩
    · intro s'
      rfl
  have hrun : ∀ (t : FQTrace Nat), TraceInv t → TraceInv (runOps t ops) := by
    induction ops with
    | nil => intro t ht; exact ht
    | cons op rest ih =>
        intro t ht
        show TraceInv (runOps (runOp t op) rest)
        apply ih
        cases op with
        | push r s0 => exact traceInv_push ht r s0
        | next => exact traceInv_next ht
  exact (hrun _ hstart).2 s

/-! ## Fair-queue round robin (C7) -/

/-- Inversion of the `should_seek` test being false: the iterator sits on
a live, non-empty queue whose priority budget is not exhausted. -/
theorem shouldSeek_false {R : Type} {fq : FairQueue R} (h : shouldSeek fq = false) :
    ∃ k e, fq.cursor = some k ∧ lookupQ fq.queues k = some e
      ∧ e.requests.isEmpty = false ∧ fq.counter < e.priority := by
  unfold shouldSeek at h
  cases hc : fq.cursor with
  | none =>
      rw [hc] at h
      exact Bool.noConfusion (show (true : Bool) = false from h)
  | some k =>
      rw [hc] at h
      have h2 : (match lookupQ fq.queues k with
          | none => true
          | some e => e.requests.isEmpty || decide (e.priority ≤ fq.counter)) = false := h
      cases he : lookupQ fq.queues k with
      | none =>
          rw [he] at h2
          exact Bool.noConfusion (show (true : Bool) = false from h2)
      | some e =>
          rw [he] at h2
          have h3 : (e.requests.isEmpty || decide (e.priority ≤ fq.counter)) = false := h2
          obtain ⟨hb1, hb2⟩ := Bool.or_eq_false_iff.mp h3
          exact ⟨k, e, rfl, he, hb1, Nat.not_le.mp (of_decide_eq_false hb2)⟩

/-- C7: `next` on a non-empty fair queue always pops the head of a
non-empty FIFO; while the current source's FIFO is non-empty and its
priority budget `counter < priority (s)` is not exhausted, `next` keeps
serving that same source and just bumps the counter — so at most
`priority (s)` consecutive items come from `s` — and otherwise the
iterator advances (`seek_next`) to the first source with a non-empty
FIFO in circular map order after the current one, resetting the
counter. -/
theorem fair_queue_round_robin (fq : FairQueue Nat) (hinv : FQInv fq)
    (hne : fq.isEmpty = false) :
    ∃ r k fq', fq.next = some ((r, k), fq')
      ∧ (∃ e, lookupQ fq.queues k = some e ∧ e.requests.head? = some r)
      ∧ (shouldSeek fq = false →
          fq.cursor = some k ∧ fq.counter < fq.priorityOf k ∧ fq'.counter = fq.counter + 1)
      ∧ (shouldSeek fq = true → seekTarget fq = some k ∧ fq'.counter = 1)
      ∧ fq'.cursor = some k := by
  obtain ⟨hsort, hent, hcur⟩ := hinv
  cases hsk : shouldSeek fq with
  | false =>
      obtain ⟨k, e, hc, he, hemp, hcnt⟩ := shouldSeek_false hsk
      obtain ⟨r, rest, hr⟩ : ∃ r rest, e.requests = r :: rest := by
        cases hre : e.requests with
        | nil => rw [hre] at hemp; simp at hemp
        | cons a b => exact ⟨a, b, rfl⟩
      have hnext : fq.next = some ((r, k),
          { fq with
            queues := setQ fq.queues k { e with requests := rest },
            counter := fq.counter + 1 }) := by
        unfold FairQueue.next
        rw [if_neg (by rw [hsk]; exact Bool.false_ne_true)]
        exact nextFrom_some_of hc he hr
      refine ⟨r, k, _, hnext, ⟨e, he, by simp [hr]⟩, ?_, ?_, ?_⟩
      · intro _
        refine ⟨hc, ?_, rfl⟩
        unfold FairQueue.priorityOf
        rw [he]
        exact hcnt
      · intro hcon
        exact Bool.noConfusion hcon
      · exact hc
  | true =>
      obtain ⟨k, hst⟩ := seekTarget_isSome hne
      obtain ⟨e, he, hreq⟩ := seekTarget_spec (keys_nodup hsort) hst
      obtain ⟨r, rest, hr⟩ : ∃ r rest, e.requests = r :: rest := by
        cases hre : e.requests with
        | nil => exact absurd hre hreq
        | cons a b => exact ⟨a, b, rfl⟩
      have hnext : fq.next = some ((r, k),
          { fq with
            queues := setQ fq.queues k { e with requests := rest },
            cursor := seekTarget fq,
            counter := 0 + 1 }) := by
        unfold FairQueue.next
        rw [if_pos hsk]
        exact @nextFrom_some_of Nat { fq with cursor := seekTarget fq, counter := 0 }
          k e r rest hst he hr
      refine ⟨r, k, _, hnext, ⟨e, he, by simp [hr]⟩, ?_, ?_, ?_⟩
      · intro hcon
        exact Bool.noConfusion hcon
      · intro _
        exact ⟨hst, rfl⟩
      · exact hst

/-- Evaluation of `fair_queue_round_robin` on the two-source state
`fqC`. -/
theorem fair_queue_round_robin_witness :
    ∃ r k fq', fqC.next = some ((r, k), fq')
      ∧ (∃ e, lookupQ fqC.queues k = some e ∧ e.requests.head? = some r)
      ∧ (shouldSeek fqC = false →
          fqC.cursor = some k ∧ fqC.counter < fqC.priorityOf k ∧ fq'.counter = fqC.counter + 1)
      ∧ (shouldSeek fqC = true → seekTarget fqC = some k ∧ fq'.counter = 1)
      ∧ fq'.cursor = some k :=
  fair_queue_round_robin fqC
    ⟨by decide, by decide, by decide⟩ (by decide)

/-- Evaluation of `fair_queue_capacity` on the reachable state `fqW`
(one accepted push on source 0, capacity 2). -/
theorem fair_queue_capacity_witness :
    fqW.size 0 ≤ fqW.maxSizeOf 0
      ∧ ((fqW.push 7 0).2 = false ↔ fqW.size 0 = fqW.maxSizeOf 0) := by
  have h := fair_queue_capacity fqW
    (FQReach.step _ _ (FQReach.init _ _) (FQStep.push _ 5 0)) 7 0 (by decide)
  exact ⟨h.1 0, h.2⟩

/-- Evaluation of `tcp_channel_queue_capacity` on a channel whose
`generic` queue is full. -/
theorem tcp_channel_queue_capacity_witness :
    cFull.fullFor .generic = true
      ∧ ((∀ t, (cFull.q t).length ≤ channelMaxSize)
          ∧ (∀ t e, cFull.fullFor t = true → cFull.sendBuffer t e = (cFull, false))
          ∧ (∀ t e, ((cFull.sendBuffer t e).1).invoked = cFull.invoked)) :=
  ⟨by decide,
    tcp_channel_queue_capacity cFull
      (channel_reach_sendMany .generic (List.range 128) ChannelReach.init)⟩

end NanoNode
